import Mathlib

/-!
Verification of `skimage/morphology/binary.py` (binary morphological
operations: erosion, dilation, opening, closing).

The embedding has two layers:

* a pure content layer: `Image` is a dense 2-D boolean array; the external
  Neighborhood Reducer (`scipy.ndimage.binary_erosion` / `binary_dilation`)
  is modelled from the spec's contract as a single-pass AND/OR over the
  footprint neighborhood with a configurable border value and iteration
  count;

* a store layer: arrays are cells of a `Store` addressed by ids, so that
  buffer identity, freshness of allocations (`np.empty`, `ndarray.copy`)
  and the source/destination ids of each reducer invocation (recorded in a
  `RedCall` trace) can be stated and proved.
-/

set_option maxHeartbeats 1000000

namespace SkimageBinary

/-- A 2-D position with integer (possibly out-of-bounds) coordinates. -/
abbrev Pos := Int × Int

/-- A dense 2-D boolean array: `h` rows, `w` columns, `pix i j` the value at
row `i`, column `j` (values outside the bounds are irrelevant junk). -/
structure Image where
  h : Nat
  w : Nat
  pix : Nat → Nat → Bool

/-- A footprint (structuring element) is itself a dense 2-D boolean array. -/
abbrev Footprint := Image

/-- Position `p` lies inside the bounds of `X`. -/
def Image.inB (X : Image) (p : Pos) : Prop :=
  0 ≤ p.1 ∧ p.1 < (X.h : Int) ∧ 0 ≤ p.2 ∧ p.2 < (X.w : Int)

instance (X : Image) (p : Pos) : Decidable (X.inB p) := by
  unfold Image.inB; infer_instance

/-- Bounds-checked read with border value `b`: out-of-bounds positions read
as `b`.  This is the border-value policy of the Neighborhood Reducer. -/
def Image.get (X : Image) (b : Bool) (p : Pos) : Bool :=
  if X.inB p then X.pix p.1.toNat p.2.toNat else b

/-- The set of neighbor offsets selected by a footprint: entry `(k, l)` of
the footprint array contributes the offset `(k - h/2, l - w/2)` relative to
the anchor (the array's center, coordinates halved rounding down). -/
def Footprint.offMem (F : Footprint) (o : Pos) : Prop :=
  ∃ k l : Nat, k < F.h ∧ l < F.w ∧ F.pix k l = true ∧
    o.1 = (k : Int) - ((F.h / 2 : Nat) : Int) ∧
    o.2 = (l : Int) - ((F.w / 2 : Nat) : Int)

instance (F : Footprint) (o : Pos) : Decidable (F.offMem o) :=
  decidable_of_iff (((List.range F.h).any fun k => (List.range F.w).any fun l =>
      F.pix k l && (decide (o.1 = (k : Int) - ((F.h / 2 : Nat) : Int)) &&
        decide (o.2 = (l : Int) - ((F.w / 2 : Nat) : Int)))) = true) (by
    constructor
    · intro h
      simp only [List.any_eq_true, List.mem_range, Bool.and_eq_true,
        decide_eq_true_eq] at h
      obtain ⟨k, hk, l, hl, h1, h2, h3⟩ := h
      exact ⟨k, l, hk, hl, h1, h2, h3⟩
    · rintro ⟨k, l, hk, hl, h1, h2, h3⟩
      simp only [List.any_eq_true, List.mem_range, Bool.and_eq_true,
        decide_eq_true_eq]
      exact ⟨k, hk, l, hl, h1, h2, h3⟩)

/-- Modelled from the spec: the external Neighborhood Reducer's single
erosion pass (`scipy.ndimage.binary_erosion`, one iteration).  Each output
position is the AND over the footprint's selected neighbor positions of the
source value, out-of-bounds neighbors reading as the border value passed by
the caller of the primitive (`binary.py` always passes border value true
for erosion). -/
def erodeOnce (F : Footprint) (X : Image) : Image :=
  ⟨X.h, X.w, fun i j =>
    (List.range F.h).all fun k =>
      (List.range F.w).all fun l =>
        !(F.pix k l) ||
          X.get true ((i : Int) + ((k : Int) - ((F.h / 2 : Nat) : Int)),
                      (j : Int) + ((l : Int) - ((F.w / 2 : Nat) : Int)))⟩

/-- Modelled from the spec: the external Neighborhood Reducer's single
dilation pass (`scipy.ndimage.binary_dilation`, one iteration, border value
false — the primitive's default, which `binary.py` relies on).  Each output
position is the OR over the footprint neighborhood of the source value; the
primitive applies the footprint mirrored about its anchor (the adjoint of
the erosion pass), out-of-bounds neighbors reading as false. -/
def dilateOnce (F : Footprint) (X : Image) : Image :=
  ⟨X.h, X.w, fun i j =>
    (List.range F.h).any fun k =>
      (List.range F.w).any fun l =>
        F.pix k l &&
          X.get false ((i : Int) - ((k : Int) - ((F.h / 2 : Nat) : Int)),
                       (j : Int) - ((l : Int) - ((F.w / 2 : Nat) : Int)))⟩

/-- Boolean test: the two arrays have the same shape and the same values
everywhere inside the bounds. -/
def Image.beq (A B : Image) : Bool :=
  A.h == B.h && A.w == B.w &&
    ((List.range A.h).all fun i =>
      (List.range A.w).all fun j => A.pix i j == B.pix i j)

/-- Propositional version of `Image.beq`: same shape, same in-bounds values. -/
def Image.sameAs (A B : Image) : Prop :=
  A.h = B.h ∧ A.w = B.w ∧ ∀ i, i < A.h → ∀ j, j < A.w → A.pix i j = B.pix i j

instance (A B : Image) : Decidable (A.sameAs B) := by
  unfold Image.sameAs; infer_instance

/-- Array `A` is pointwise below `B` on the grid of `A`. -/
def Image.subset (A B : Image) : Prop :=
  ∀ i, i < A.h → ∀ j, j < A.w → A.pix i j = true → B.pix i j = true

instance (A B : Image) : Decidable (A.subset B) := by
  unfold Image.subset; infer_instance

/-- Modelled from the spec / the platform primitive's documentation: an
iteration count below 1 makes the Neighborhood Reducer repeat its pass
until the result no longer changes.  Modelled with an explicit fuel
argument (structural recursion); the caller supplies a fuel larger than
the number of distinct arrays of the given shape, after which the orbit
must have revisited an array. -/
def untilStable (step : Image → Image) : Nat → Image → Image
  | 0, X => X
  | Nat.succ fuel, X => if (step X).beq X then X else untilStable step fuel (step X)

/-- The Neighborhood Reducer's iteration-count semantics: `n ≥ 1` repeats
the single pass `n` times; `n = 0` (the encoding of "iterations < 1")
repeats until the result stops changing. -/
def applyIter (step : Image → Image) (n : Nat) (X : Image) : Image :=
  if n = 0 then untilStable step (2 ^ (X.h * X.w) + 1) X else step^[n] X

/-! ### The store layer: array identity -/

/-- A heap of arrays: cells are addressed by `Nat` ids, ids below `next`
are allocated. -/
structure Store where
  next : Nat
  data : Nat → Image

/-- Read the array held in cell `id`. -/
def Store.read (s : Store) (id : Nat) : Image := s.data id

/-- Overwrite cell `id` in place. -/
def Store.write (s : Store) (id : Nat) (X : Image) : Store :=
  ⟨s.next, fun k => if k = id then X else s.data k⟩

/-- Allocate a fresh cell holding `X`; returns the new store and the new
cell's id. -/
def Store.alloc (s : Store) (X : Image) : Store × Nat :=
  (⟨s.next + 1, fun k => if k = s.next then X else s.data k⟩, s.next)

/-- One invocation of the Neighborhood Reducer, as recorded in a trace:
the id the reducer read from, the id it wrote to, the iteration count it
was passed, and snapshots of the source's contents and of the
destination's pre-call contents. -/
structure RedCall where
  src : Nat
  dst : Nat
  iters : Nat
  srcVal : Image
  dstPre : Image

/-- The loop body of `_iterate_binary_func`: for each remaining
`(footprint, iterations)` pair, allocate `out.copy()` (a fresh array
holding `out`'s current contents) and run the reducer from that copy into
`out`. -/
def iterTail (f : Footprint → Nat → Image → Image) (out : Nat) :
    Store → List (Footprint × Nat) → Store × List RedCall
  | s, [] => (s, [])
  | s, (fp, n) :: rest =>
      let a := s.alloc (s.read out)
      let s2 := (a.1).write out (f fp n ((a.1).read a.2))
      let r := iterTail f out s2 rest
      (r.1, ⟨a.2, out, n, (a.1).read a.2, (a.1).read out⟩ :: r.2)

/-- Embedding of `_iterate_binary_func`: unpack the first
`(footprint, iterations)` pair (raising `IndexError` on an empty
sequence, before any reducer call), run the reducer from the original
image into `out`, then chain the remaining pairs through `iterTail`.
Returns the final store, the id of the filled buffer, and the trace of
reducer invocations. -/
def iterate_binary_func (f : Footprint → Nat → Image → Image) (s : Store)
    (image out : Nat) (footprint : List (Footprint × Nat)) :
    Except String (Store × Nat × List RedCall) :=
  match footprint with
  | [] => Except.error "IndexError: footprint sequence is empty"
  | (fp, n) :: rest =>
      let s1 := s.write out (f fp n (s.read image))
      let r := iterTail f out s1 rest
      Except.ok (r.1, out, ⟨image, out, n, s.read image, s.read out⟩ :: r.2)

/-- Modelled from the spec: the Footprint Sequence Normalizer
(`_footprint_is_sequence`, an external collaborator) classifies the
footprint argument as a single structuring element or as a decomposed
ordered sequence of `(footprint, iterations)` pairs; the spec's design
notes model this as a tagged variant dispatched explicitly. -/
inductive FootprintArg where
  | single : Footprint → FootprintArg
  | seq : List (Footprint × Nat) → FootprintArg

/-- Modelled from the source's `np.empty(image.shape, dtype=bool)`: a fresh
boolean buffer of the image's shape; its initial contents are
uninitialized junk (all-false here) and are never read before being
overwritten. -/
def emptyLike (X : Image) : Image := ⟨X.h, X.w, fun _ _ => false⟩

/-- Embedding of `binary_erosion`: if `out` is absent allocate a fresh
buffer of the image's shape; if the footprint is a decomposed sequence,
delegate to `iterate_binary_func` with the reducer's erosion bound to
border value true; otherwise one reducer erosion call (border value true,
one iteration) from the image into the output buffer, which is returned. -/
def binary_erosion (s : Store) (image : Nat) (footprint : FootprintArg)
    (out : Option Nat) : Except String (Store × Nat × List RedCall) :=
  let a := match out with
    | some o => (s, o)
    | none => s.alloc (emptyLike (s.read image))
  let s0 := a.1
  let outId := a.2
  match footprint with
  | FootprintArg.seq fps =>
      iterate_binary_func (fun fp n X => applyIter (erodeOnce fp) n X) s0 image outId fps
  | FootprintArg.single fp =>
      Except.ok (s0.write outId (erodeOnce fp (s0.read image)), outId,
        [⟨image, outId, 1, s0.read image, s0.read outId⟩])

/-- Embedding of `binary_dilation`: same shape as `binary_erosion`, with
the reducer's dilation (border value false, the primitive's default). -/
def binary_dilation (s : Store) (image : Nat) (footprint : FootprintArg)
    (out : Option Nat) : Except String (Store × Nat × List RedCall) :=
  let a := match out with
    | some o => (s, o)
    | none => s.alloc (emptyLike (s.read image))
  let s0 := a.1
  let outId := a.2
  match footprint with
  | FootprintArg.seq fps =>
      iterate_binary_func (fun fp n X => applyIter (dilateOnce fp) n X) s0 image outId fps
  | FootprintArg.single fp =>
      Except.ok (s0.write outId (dilateOnce fp (s0.read image)), outId,
        [⟨image, outId, 1, s0.read image, s0.read outId⟩])

/-- Embedding of `binary_opening`: `eroded = binary_erosion(image,
footprint)` (no `out` argument, so the intermediate is a fresh buffer),
then `out = binary_dilation(eroded, footprint, out=out)`; the dilation's
buffer is returned.  The trace is the concatenation of both stages'
traces. -/
def binary_opening (s : Store) (image : Nat) (footprint : FootprintArg)
    (out : Option Nat) : Except String (Store × Nat × List RedCall) :=
  match binary_erosion s image footprint none with
  | Except.error e => Except.error e
  | Except.ok (s1, eroded, t1) =>
      match binary_dilation s1 eroded footprint out with
      | Except.error e => Except.error e
      | Except.ok (s2, outId, t2) => Except.ok (s2, outId, t1 ++ t2)

/-- Embedding of `binary_closing`: `dilated = binary_dilation(image,
footprint)` into a fresh intermediate buffer, then `out =
binary_erosion(dilated, footprint, out=out)`. -/
def binary_closing (s : Store) (image : Nat) (footprint : FootprintArg)
    (out : Option Nat) : Except String (Store × Nat × List RedCall) :=
  match binary_dilation s image footprint none with
  | Except.error e => Except.error e
  | Except.ok (s1, dilated, t1) =>
      match binary_erosion s1 dilated footprint out with
      | Except.error e => Except.error e
      | Except.ok (s2, outId, t2) => Except.ok (s2, outId, t1 ++ t2)

/-- The content transformation of the erosion path, by footprint argument:
a single reducer pass for a single footprint, the chained folds of
`_iterate_binary_func` for a decomposed sequence. -/
def erodeContent (footprint : FootprintArg) (X : Image) : Image :=
  match footprint with
  | FootprintArg.single F => erodeOnce F X
  | FootprintArg.seq fps =>
      fps.foldl (fun A p => applyIter (erodeOnce p.1) p.2 A) X

/-- The content transformation of the dilation path. -/
def dilateContent (footprint : FootprintArg) (X : Image) : Image :=
  match footprint with
  | FootprintArg.single F => dilateOnce F X
  | FootprintArg.seq fps =>
      fps.foldl (fun A p => applyIter (dilateOnce p.1) p.2 A) X

/-- A footprint argument the operators accept without raising: a single
element, or a non-empty decomposed sequence. -/
def FootprintArg.ok : FootprintArg → Prop
  | FootprintArg.single _ => True
  | FootprintArg.seq fps => fps ≠ []

/-- The buffer id an operator result carries. -/
def resultId : Except String (Store × Nat × List RedCall) → Option Nat
  | Except.ok (_, id, _) => some id
  | Except.error _ => none

/-- The contents of the buffer an operator result carries. -/
def resultImg : Except String (Store × Nat × List RedCall) → Image
  | Except.ok (s, id, _) => s.read id
  | Except.error _ => ⟨0, 0, fun _ _ => false⟩

/-- The trace of reducer invocations an operator result carries. -/
def resultTrace : Except String (Store × Nat × List RedCall) → List RedCall
  | Except.ok (_, _, t) => t
  | Except.error _ => []

/-- Whether the operator returned normally. -/
def isOk : Except String (Store × Nat × List RedCall) → Prop
  | Except.ok _ => True
  | Except.error _ => False

/-! ### Basic lemmas about bounds-checked reads -/

theorem inB_natCast (X : Image) (i j : Nat) :
    X.inB ((i : Int), (j : Int)) ↔ i < X.h ∧ j < X.w := by
  unfold Image.inB
  dsimp only
  omega

theorem get_true_iff (X : Image) (p : Pos) :
    X.get true p = true ↔ (X.inB p → X.pix p.1.toNat p.2.toNat = true) := by
  unfold Image.get
  by_cases h : X.inB p <;> simp [h]

theorem get_false_iff (X : Image) (p : Pos) :
    X.get false p = true ↔ X.inB p ∧ X.pix p.1.toNat p.2.toNat = true := by
  unfold Image.get
  by_cases h : X.inB p <;> simp [h]

theorem get_natCast (X : Image) (b : Bool) (i j : Nat) (hi : i < X.h) (hj : j < X.w) :
    X.get b ((i : Int), (j : Int)) = X.pix i j := by
  unfold Image.get
  rw [if_pos ((inB_natCast X i j).mpr ⟨hi, hj⟩)]
  simp

/-! ### Characterization of the reducer passes -/

@[simp] theorem erodeOnce_h (F : Footprint) (X : Image) : (erodeOnce F X).h = X.h := rfl

@[simp] theorem erodeOnce_w (F : Footprint) (X : Image) : (erodeOnce F X).w = X.w := rfl

@[simp] theorem dilateOnce_h (F : Footprint) (X : Image) : (dilateOnce F X).h = X.h := rfl

@[simp] theorem dilateOnce_w (F : Footprint) (X : Image) : (dilateOnce F X).w = X.w := rfl

/-- A pixel of one erosion pass is true exactly when every neighbor position
selected by the footprint reads true (border value true). -/
theorem erodeOnce_pix_iff (F : Footprint) (X : Image) (i j : Nat) :
    (erodeOnce F X).pix i j = true ↔
      ∀ o : Pos, F.offMem o →
        X.get true ((i : Int) + o.1, (j : Int) + o.2) = true := by
  constructor
  · intro h o ho
    obtain ⟨k, l, hk, hl, hp, h1, h2⟩ := ho
    simp only [erodeOnce, List.all_eq_true, List.mem_range] at h
    have h3 := h k hk l hl
    rw [Bool.or_eq_true, Bool.not_eq_true'] at h3
    rcases h3 with h3 | h3
    · rw [hp] at h3; cases h3
    · rw [h1, h2]; exact h3
  · intro h
    simp only [erodeOnce, List.all_eq_true, List.mem_range]
    intro k hk l hl
    rw [Bool.or_eq_true, Bool.not_eq_true']
    by_cases hp : F.pix k l = true
    · exact Or.inr (h ((k : Int) - ((F.h / 2 : Nat) : Int),
        (l : Int) - ((F.w / 2 : Nat) : Int)) ⟨k, l, hk, hl, hp, rfl, rfl⟩)
    · exact Or.inl (Bool.eq_false_iff.mpr hp)

/-- A pixel of one dilation pass is true exactly when some neighbor position
selected by the mirrored footprint reads true (border value false). -/
theorem dilateOnce_pix_iff (F : Footprint) (X : Image) (i j : Nat) :
    (dilateOnce F X).pix i j = true ↔
      ∃ o : Pos, F.offMem o ∧
        X.get false ((i : Int) - o.1, (j : Int) - o.2) = true := by
  constructor
  · intro h
    simp only [dilateOnce, List.any_eq_true, List.mem_range] at h
    obtain ⟨k, hk, l, hl, h3⟩ := h
    rw [Bool.and_eq_true] at h3
    exact ⟨((k : Int) - ((F.h / 2 : Nat) : Int), (l : Int) - ((F.w / 2 : Nat) : Int)),
      ⟨k, l, hk, hl, h3.1, rfl, rfl⟩, h3.2⟩
  · rintro ⟨o, ⟨k, l, hk, hl, hp, h1, h2⟩, hg⟩
    simp only [dilateOnce, List.any_eq_true, List.mem_range]
    refine ⟨k, hk, l, hl, ?_⟩
    rw [Bool.and_eq_true]
    refine ⟨hp, ?_⟩
    rw [h1, h2] at hg
    exact hg

/-! ### Basic store lemmas -/

@[simp] theorem Store.read_write_self (s : Store) (id : Nat) (X : Image) :
    (s.write id X).read id = X := by
  simp [Store.read, Store.write]

theorem Store.read_write_ne (s : Store) (id id' : Nat) (X : Image) (h : id' ≠ id) :
    (s.write id X).read id' = s.read id' := by
  simp [Store.read, Store.write, h]

@[simp] theorem Store.write_next (s : Store) (id : Nat) (X : Image) :
    (s.write id X).next = s.next := rfl

@[simp] theorem Store.alloc_id (s : Store) (X : Image) : (s.alloc X).2 = s.next := rfl

@[simp] theorem Store.alloc_next (s : Store) (X : Image) :
    (s.alloc X).1.next = s.next + 1 := rfl

@[simp] theorem Store.read_alloc_new (s : Store) (X : Image) :
    (s.alloc X).1.read s.next = X := by
  simp [Store.read, Store.alloc]

theorem Store.read_alloc_ne (s : Store) (X : Image) (id : Nat) (h : id ≠ s.next) :
    (s.alloc X).1.read id = s.read id := by
  simp [Store.read, Store.alloc, h]

/-! ### Lemmas about the Sequential Application Driver -/

theorem iterTail_next_le (f : Footprint → Nat → Image → Image) (out : Nat)
    (fps : List (Footprint × Nat)) :
    ∀ s : Store, s.next ≤ (iterTail f out s fps).1.next := by
  induction fps with
  | nil => intro s; exact Nat.le_refl _
  | cons p rest ih =>
      intro s
      obtain ⟨fp, n⟩ := p
      simp only [iterTail]
      refine Nat.le_trans ?_ (ih _)
      simp only [Store.write_next, Store.alloc_next]
      omega

/-- Every reducer call recorded by the driver's loop writes to `out`, reads
from an array freshly allocated during the loop, and that source array is a
copy: its contents equal the destination's pre-call contents. -/
theorem iterTail_calls (f : Footprint → Nat → Image → Image) (out : Nat)
    (fps : List (Footprint × Nat)) :
    ∀ s : Store, ∀ c ∈ (iterTail f out s fps).2,
      c.dst = out ∧ s.next ≤ c.src ∧ c.srcVal = c.dstPre := by
  induction fps with
  | nil => intro s c hc; simp [iterTail] at hc
  | cons p rest ih =>
      intro s c hc
      obtain ⟨fp, n⟩ := p
      simp only [iterTail, List.mem_cons] at hc
      rcases hc with rfl | hc
      · refine ⟨rfl, Nat.le_refl _, ?_⟩
        simp only [Store.alloc_id, Store.read_alloc_new]
        by_cases h : out = (s : Store).next
        · rw [h, Store.read_alloc_new]
        · rw [Store.read_alloc_ne _ _ _ h]
      · have h := ih _ c hc
        refine ⟨h.1, ?_, h.2.2⟩
        refine Nat.le_trans ?_ h.2.1
        simp only [Store.write_next, Store.alloc_next]
        exact Nat.le_succ _

theorem iterTail_length (f : Footprint → Nat → Image → Image) (out : Nat)
    (fps : List (Footprint × Nat)) :
    ∀ s : Store, (iterTail f out s fps).2.length = fps.length := by
  induction fps with
  | nil => intro s; rfl
  | cons p rest ih =>
      intro s
      obtain ⟨fp, n⟩ := p
      simp only [iterTail, List.length_cons, ih]

theorem iterTail_iters (f : Footprint → Nat → Image → Image) (out : Nat)
    (fps : List (Footprint × Nat)) :
    ∀ s : Store, (iterTail f out s fps).2.map RedCall.iters = fps.map Prod.snd := by
  induction fps with
  | nil => intro s; rfl
  | cons p rest ih =>
      intro s
      obtain ⟨fp, n⟩ := p
      simp only [iterTail, List.map_cons, ih]

/-- The contents of `out` after the driver's loop: the fold of the bound
reducer over the remaining `(footprint, iterations)` pairs. -/
theorem iterTail_read_out (f : Footprint → Nat → Image → Image) (out : Nat)
    (fps : List (Footprint × Nat)) :
    ∀ s : Store, (iterTail f out s fps).1.read out =
      fps.foldl (fun X p => f p.1 p.2 X) (s.read out) := by
  induction fps with
  | nil => intro s; rfl
  | cons p rest ih =>
      intro s
      obtain ⟨fp, n⟩ := p
      simp only [iterTail, List.foldl_cons, ih, Store.alloc_id, Store.read_alloc_new,
        Store.read_write_self]

/-- The driver's loop touches no allocated cell other than `out`. -/
theorem iterTail_frame (f : Footprint → Nat → Image → Image) (out : Nat)
    (fps : List (Footprint × Nat)) :
    ∀ s : Store, ∀ id, id < s.next → id ≠ out →
      (iterTail f out s fps).1.read id = s.read id := by
  induction fps with
  | nil => intro s id _ _; rfl
  | cons p rest ih =>
      intro s id hlt hne
      obtain ⟨fp, n⟩ := p
      simp only [iterTail]
      rw [ih _ id (by simp only [Store.write_next, Store.alloc_next]; omega) hne,
        Store.read_write_ne _ _ _ _ hne,
        Store.read_alloc_ne _ _ _ (by omega)]

/-- Full specification of one `iterate_binary_func` run on a non-empty
sequence: it returns `out` filled with the fold of the bound reducer over
the sequence; cells other than `out` allocated before the call keep their
contents; the trace starts with a call from the original image into `out`
and continues with calls from fresh copies into `out`. -/
theorem iterate_binary_func_spec (f : Footprint → Nat → Image → Image)
    (s : Store) (image out : Nat) (fp0 : Footprint × Nat)
    (rest : List (Footprint × Nat)) :
    ∃ s' t,
      iterate_binary_func f s image out (fp0 :: rest) = Except.ok (s', out, t) ∧
      s'.read out = rest.foldl (fun X p => f p.1 p.2 X) (f fp0.1 fp0.2 (s.read image)) ∧
      (∀ id, id < s.next → id ≠ out → s'.read id = s.read id) ∧
      s.next ≤ s'.next ∧
      t.map RedCall.iters = (fp0 :: rest).map Prod.snd ∧
      ∃ tl, t = (⟨image, out, fp0.2, s.read image, s.read out⟩ : RedCall) :: tl ∧
        ∀ c ∈ tl, c.dst = out ∧ s.next ≤ c.src ∧ c.srcVal = c.dstPre := by
  obtain ⟨fp, n⟩ := fp0
  refine ⟨_, _, rfl, ?_, ?_, ?_, ?_, ?_⟩
  · rw [iterTail_read_out, Store.read_write_self]
  · intro id hlt hne
    rw [iterTail_frame _ _ _ _ id (by simpa using hlt) hne,
      Store.read_write_ne _ _ _ _ hne]
  · exact Nat.le_trans (by simp) (iterTail_next_le _ _ _ _)
  · simp only [List.map_cons]
    rw [iterTail_iters]
  · refine ⟨_, rfl, ?_⟩
    intro c hc
    have h := iterTail_calls f out rest _ c hc
    exact ⟨h.1, by simpa using h.2.1, h.2.2⟩

/-- The id of the buffer an operator fills: the caller's `out` when
supplied, else the first cell allocated during the call. -/
def outIdOf (s : Store) (out : Option Nat) : Nat :=
  match out with
  | some o => o
  | none => s.next

/-- Full specification of one `binary_erosion` call with a well-formed
footprint argument: the call succeeds and returns the output buffer filled
with the erosion content transformation of the image's contents; no other
previously allocated cell changes; every reducer call in the trace writes
to the output buffer and reads either the original image or an array
allocated during the call (and distinct from the output buffer). -/
theorem binary_erosion_spec (s : Store) (image : Nat) (fp : FootprintArg)
    (out : Option Nat) (hok : fp.ok) (himg : image < s.next)
    (hout : ∀ o, out = some o → o < s.next) :
    ∃ s' t, binary_erosion s image fp out = Except.ok (s', outIdOf s out, t) ∧
      s'.read (outIdOf s out) = erodeContent fp (s.read image) ∧
      (∀ id, id < s.next → id ≠ outIdOf s out → s'.read id = s.read id) ∧
      s.next ≤ s'.next ∧
      (out = none → s.next < s'.next) ∧
      t ≠ [] ∧
      (∀ c ∈ t, c.dst = outIdOf s out ∧
        (c.src = image ∨ (s.next ≤ c.src ∧ c.src ≠ outIdOf s out))) := by
  cases fp with
  | single F =>
      cases out with
      | some o =>
          simp only [outIdOf]
          refine ⟨_, _, rfl, ?_, ?_, Nat.le_refl _, by simp, by simp, ?_⟩
          · dsimp only
            rw [Store.read_write_self]; rfl
          · intro id _ hne
            dsimp only
            exact Store.read_write_ne _ _ _ _ hne
          · intro c hc
            rw [List.mem_singleton] at hc
            subst hc
            exact ⟨rfl, Or.inl rfl⟩
      | none =>
          simp only [outIdOf]
          refine ⟨_, _, rfl, ?_, ?_, by simp,
            by intro h2; simp only [Store.write_next, Store.alloc_next]; omega,
            by simp, ?_⟩
          · simp only [Store.alloc_id]
            rw [Store.read_write_self]
            show erodeOnce F ((s.alloc _).1.read image) = _
            rw [Store.read_alloc_ne _ _ _ (by omega)]
            rfl
          · intro id hlt hne
            simp only [Store.alloc_id]
            rw [Store.read_write_ne _ _ _ _ hne,
              Store.read_alloc_ne _ _ _ (by omega)]
          · intro c hc
            rw [List.mem_singleton] at hc
            subst hc
            exact ⟨rfl, Or.inl rfl⟩
  | seq fps =>
      cases fps with
      | nil => exact absurd rfl hok
      | cons fp0 rest =>
          cases out with
          | some o =>
              simp only [outIdOf]
              obtain ⟨s', t, heq, hread, hframe, hnext, hiters, tl, htl, htail⟩ :=
                iterate_binary_func_spec
                  (fun fp n X => applyIter (erodeOnce fp) n X) s image o fp0 rest
              refine ⟨s', t, heq, ?_, hframe, hnext, by simp, by rw [htl]; simp, ?_⟩
              · rw [hread]; rfl
              · intro c hc
                rw [htl, List.mem_cons] at hc
                rcases hc with rfl | hc
                · exact ⟨rfl, Or.inl rfl⟩
                · have h := htail c hc
                  exact ⟨h.1, Or.inr ⟨h.2.1, by have := hout o rfl; omega⟩⟩
          | none =>
              simp only [outIdOf]
              obtain ⟨s', t, heq, hread, hframe, hnext, hiters, tl, htl, htail⟩ :=
                iterate_binary_func_spec
                  (fun fp n X => applyIter (erodeOnce fp) n X)
                  (s.alloc (emptyLike (s.read image))).1 image s.next fp0 rest
              refine ⟨s', t, heq, ?_, ?_, ?_, ?_, by rw [htl]; simp, ?_⟩
              · rw [hread, Store.read_alloc_ne _ _ _ (by omega)]; rfl
              · intro id hlt hne
                rw [hframe id (by simp; omega) hne,
                  Store.read_alloc_ne _ _ _ (by omega)]
              · refine Nat.le_trans ?_ hnext
                simp
              · intro h2
                refine Nat.lt_of_lt_of_le ?_ hnext
                simp only [Store.alloc_next]
                omega
              · intro c hc
                rw [htl, List.mem_cons] at hc
                rcases hc with rfl | hc
                · exact ⟨rfl, Or.inl rfl⟩
                · have h := htail c hc
                  have h2 := h.2.1
                  rw [Store.alloc_next] at h2
                  exact ⟨h.1, Or.inr ⟨by omega, by omega⟩⟩

/-- Full specification of one `binary_dilation` call; mirror image of
`binary_erosion_spec`. -/
theorem binary_dilation_spec (s : Store) (image : Nat) (fp : FootprintArg)
    (out : Option Nat) (hok : fp.ok) (himg : image < s.next)
    (hout : ∀ o, out = some o → o < s.next) :
    ∃ s' t, binary_dilation s image fp out = Except.ok (s', outIdOf s out, t) ∧
      s'.read (outIdOf s out) = dilateContent fp (s.read image) ∧
      (∀ id, id < s.next → id ≠ outIdOf s out → s'.read id = s.read id) ∧
      s.next ≤ s'.next ∧
      (out = none → s.next < s'.next) ∧
      t ≠ [] ∧
      (∀ c ∈ t, c.dst = outIdOf s out ∧
        (c.src = image ∨ (s.next ≤ c.src ∧ c.src ≠ outIdOf s out))) := by
  cases fp with
  | single F =>
      cases out with
      | some o =>
          simp only [outIdOf]
          refine ⟨_, _, rfl, ?_, ?_, Nat.le_refl _, by simp, by simp, ?_⟩
          · dsimp only
            rw [Store.read_write_self]; rfl
          · intro id _ hne
            dsimp only
            exact Store.read_write_ne _ _ _ _ hne
          · intro c hc
            rw [List.mem_singleton] at hc
            subst hc
            exact ⟨rfl, Or.inl rfl⟩
      | none =>
          simp only [outIdOf]
          refine ⟨_, _, rfl, ?_, ?_, by simp,
            by intro h2; simp only [Store.write_next, Store.alloc_next]; omega,
            by simp, ?_⟩
          · simp only [Store.alloc_id]
            rw [Store.read_write_self]
            show dilateOnce F ((s.alloc _).1.read image) = _
            rw [Store.read_alloc_ne _ _ _ (by omega)]
            rfl
          · intro id hlt hne
            simp only [Store.alloc_id]
            rw [Store.read_write_ne _ _ _ _ hne,
              Store.read_alloc_ne _ _ _ (by omega)]
          · intro c hc
            rw [List.mem_singleton] at hc
            subst hc
            exact ⟨rfl, Or.inl rfl⟩
  | seq fps =>
      cases fps with
      | nil => exact absurd rfl hok
      | cons fp0 rest =>
          cases out with
          | some o =>
              simp only [outIdOf]
              obtain ⟨s', t, heq, hread, hframe, hnext, hiters, tl, htl, htail⟩ :=
                iterate_binary_func_spec
                  (fun fp n X => applyIter (dilateOnce fp) n X) s image o fp0 rest
              refine ⟨s', t, heq, ?_, hframe, hnext, by simp, by rw [htl]; simp, ?_⟩
              · rw [hread]; rfl
              · intro c hc
                rw [htl, List.mem_cons] at hc
                rcases hc with rfl | hc
                · exact ⟨rfl, Or.inl rfl⟩
                · have h := htail c hc
                  exact ⟨h.1, Or.inr ⟨h.2.1, by have := hout o rfl; omega⟩⟩
          | none =>
              simp only [outIdOf]
              obtain ⟨s', t, heq, hread, hframe, hnext, hiters, tl, htl, htail⟩ :=
                iterate_binary_func_spec
                  (fun fp n X => applyIter (dilateOnce fp) n X)
                  (s.alloc (emptyLike (s.read image))).1 image s.next fp0 rest
              refine ⟨s', t, heq, ?_, ?_, ?_, ?_, by rw [htl]; simp, ?_⟩
              · rw [hread, Store.read_alloc_ne _ _ _ (by omega)]; rfl
              · intro id hlt hne
                rw [hframe id (by simp; omega) hne,
                  Store.read_alloc_ne _ _ _ (by omega)]
              · refine Nat.le_trans ?_ hnext
                simp
              · intro h2
                refine Nat.lt_of_lt_of_le ?_ hnext
                simp only [Store.alloc_next]
                omega
              · intro c hc
                rw [htl, List.mem_cons] at hc
                rcases hc with rfl | hc
                · exact ⟨rfl, Or.inl rfl⟩
                · have h := htail c hc
                  have h2 := h.2.1
                  rw [Store.alloc_next] at h2
                  exact ⟨h.1, Or.inr ⟨by omega, by omega⟩⟩

/-- Full specification of one `binary_opening` call: the erosion stage
writes only into the freshly allocated intermediate buffer (cell `s.next`,
never the caller's `out`), the dilation stage reads the intermediate (or
arrays allocated after it) and writes only into the returned buffer, and
the returned buffer holds the dilation of the erosion of the image. -/
theorem binary_opening_spec (s : Store) (image : Nat) (fp : FootprintArg)
    (out : Option Nat) (hok : fp.ok) (himg : image < s.next)
    (hout : ∀ o, out = some o → o < s.next) :
    ∃ s2 rid t1 t2,
      binary_opening s image fp out = Except.ok (s2, rid, t1 ++ t2) ∧
      (∀ o, out = some o → rid = o) ∧
      (out = none → s.next < rid) ∧
      s2.read rid = dilateContent fp (erodeContent fp (s.read image)) ∧
      t1 ≠ [] ∧ t2 ≠ [] ∧
      (∀ c ∈ t1, c.dst = s.next ∧
        (c.src = image ∨ (s.next ≤ c.src ∧ c.src ≠ s.next))) ∧
      (∀ c ∈ t2, c.dst = rid ∧
        (c.src = s.next ∨ (s.next < c.src ∧ c.src ≠ rid))) := by
  obtain ⟨s1, t1, heq1, hread1, hframe1, hnext1, hnone1, htne1, htr1⟩ :=
    binary_erosion_spec s image fp none hok himg (by intro o h; cases h)
  have hstep : s.next < s1.next := hnone1 rfl
  obtain ⟨s2, t2, heq2, hread2, hframe2, hnext2, hnone2, htne2, htr2⟩ :=
    binary_dilation_spec s1 (outIdOf s none) fp out hok
      (by simpa [outIdOf] using hstep)
      (by intro o h; exact Nat.lt_of_lt_of_le (hout o h) hnext1)
  refine ⟨s2, outIdOf s1 out, t1, t2, ?_, ?_, ?_, ?_, htne1, htne2, ?_, ?_⟩
  · show binary_opening s image fp out = _
    unfold binary_opening
    rw [heq1]
    dsimp only
    rw [heq2]
  · intro o h
    subst h
    rfl
  · intro h
    subst h
    simpa [outIdOf] using hstep
  · rw [hread2]
    simp only [outIdOf] at hread1 ⊢
    rw [hread1]
  · intro c hc
    have h := htr1 c hc
    simp only [outIdOf] at h
    exact h
  · intro c hc
    have h := htr2 c hc
    refine ⟨h.1, ?_⟩
    simp only [outIdOf] at h
    rcases h.2 with h2 | h2
    · exact Or.inl h2
    · exact Or.inr ⟨Nat.lt_of_lt_of_le hstep h2.1, h2.2⟩

/-- Full specification of one `binary_closing` call; mirror image of
`binary_opening_spec` with dilation first, erosion second. -/
theorem binary_closing_spec (s : Store) (image : Nat) (fp : FootprintArg)
    (out : Option Nat) (hok : fp.ok) (himg : image < s.next)
    (hout : ∀ o, out = some o → o < s.next) :
    ∃ s2 rid t1 t2,
      binary_closing s image fp out = Except.ok (s2, rid, t1 ++ t2) ∧
      (∀ o, out = some o → rid = o) ∧
      (out = none → s.next < rid) ∧
      s2.read rid = erodeContent fp (dilateContent fp (s.read image)) ∧
      t1 ≠ [] ∧ t2 ≠ [] ∧
      (∀ c ∈ t1, c.dst = s.next ∧
        (c.src = image ∨ (s.next ≤ c.src ∧ c.src ≠ s.next))) ∧
      (∀ c ∈ t2, c.dst = rid ∧
        (c.src = s.next ∨ (s.next < c.src ∧ c.src ≠ rid))) := by
  obtain ⟨s1, t1, heq1, hread1, hframe1, hnext1, hnone1, htne1, htr1⟩ :=
    binary_dilation_spec s image fp none hok himg (by intro o h; cases h)
  have hstep : s.next < s1.next := hnone1 rfl
  obtain ⟨s2, t2, heq2, hread2, hframe2, hnext2, hnone2, htne2, htr2⟩ :=
    binary_erosion_spec s1 (outIdOf s none) fp out hok
      (by simpa [outIdOf] using hstep)
      (by intro o h; exact Nat.lt_of_lt_of_le (hout o h) hnext1)
  refine ⟨s2, outIdOf s1 out, t1, t2, ?_, ?_, ?_, ?_, htne1, htne2, ?_, ?_⟩
  · show binary_closing s image fp out = _
    unfold binary_closing
    rw [heq1]
    dsimp only
    rw [heq2]
  · intro o h
    subst h
    rfl
  · intro h
    subst h
    simpa [outIdOf] using hstep
  · rw [hread2]
    simp only [outIdOf] at hread1 ⊢
    rw [hread1]
  · intro c hc
    have h := htr1 c hc
    simp only [outIdOf] at h
    exact h
  · intro c hc
    have h := htr2 c hc
    refine ⟨h.1, ?_⟩
    simp only [outIdOf] at h
    rcases h.2 with h2 | h2
    · exact Or.inl h2
    · exact Or.inr ⟨Nat.lt_of_lt_of_le hstep h2.1, h2.2⟩

/-! ### Pure views of the operators -/

/-- A one-cell store hosting just the given image (cell 0). -/
def singleton (X : Image) : Store := ⟨1, fun _ => X⟩

/-- The function `binary_erosion` as a pure map on array contents. -/
def erodePure (fp : FootprintArg) (X : Image) : Image :=
  resultImg (binary_erosion (singleton X) 0 fp none)

/-- The function `binary_dilation` as a pure map on array contents. -/
def dilatePure (fp : FootprintArg) (X : Image) : Image :=
  resultImg (binary_dilation (singleton X) 0 fp none)

/-- The function `binary_opening` as a pure map on array contents. -/
def openPure (fp : FootprintArg) (X : Image) : Image :=
  resultImg (binary_opening (singleton X) 0 fp none)

/-- The function `binary_closing` as a pure map on array contents. -/
def closePure (fp : FootprintArg) (X : Image) : Image :=
  resultImg (binary_closing (singleton X) 0 fp none)

theorem erodePure_content (fp : FootprintArg) (X : Image) (hok : fp.ok) :
    erodePure fp X = erodeContent fp X := by
  obtain ⟨s', t, heq, hread, _⟩ :=
    binary_erosion_spec (singleton X) 0 fp none hok Nat.zero_lt_one (by intro o h; cases h)
  unfold erodePure
  rw [heq]
  exact hread

theorem dilatePure_content (fp : FootprintArg) (X : Image) (hok : fp.ok) :
    dilatePure fp X = dilateContent fp X := by
  obtain ⟨s', t, heq, hread, _⟩ :=
    binary_dilation_spec (singleton X) 0 fp none hok Nat.zero_lt_one (by intro o h; cases h)
  unfold dilatePure
  rw [heq]
  exact hread

theorem openPure_content (fp : FootprintArg) (X : Image) (hok : fp.ok) :
    openPure fp X = dilateContent fp (erodeContent fp X) := by
  obtain ⟨s2, rid, t1, t2, heq, _, _, hread, _⟩ :=
    binary_opening_spec (singleton X) 0 fp none hok Nat.zero_lt_one (by intro o h; cases h)
  unfold openPure
  rw [heq]
  exact hread

theorem closePure_content (fp : FootprintArg) (X : Image) (hok : fp.ok) :
    closePure fp X = erodeContent fp (dilateContent fp X) := by
  obtain ⟨s2, rid, t1, t2, heq, _, _, hread, _⟩ :=
    binary_closing_spec (singleton X) 0 fp none hok Nat.zero_lt_one (by intro o h; cases h)
  unfold closePure
  rw [heq]
  exact hread

/-! ### Concrete arrays used by the claims -/

/-- An all-true 3 by 3 image. -/
def allTrue3 : Image := ⟨3, 3, fun _ _ => true⟩

/-- A full (all-true) 3 by 3 footprint. -/
def full3 : Footprint := ⟨3, 3, fun _ _ => true⟩

/-- An all-false 3 by 3 image. -/
def allFalse3 : Image := ⟨3, 3, fun _ _ => false⟩

/-- A store hosting the all-true 3 by 3 image in cell 0. -/
def demoStoreT : Store := ⟨1, fun _ => allTrue3⟩

/-- A store hosting the all-false 3 by 3 image in cell 0. -/
def demoStoreF : Store := ⟨1, fun _ => allFalse3⟩

/-! ### Claims -/

/-- C1: for every image and every single (non-decomposed) footprint,
`binary_erosion` sets each output position to the logical AND over the
image positions selected by the footprint's neighborhood, treating every
out-of-bounds neighbor position as true; in particular, eroding an
all-true 3x3 image with a full 3x3 footprint yields an all-true result. -/
theorem C1_erosion_neighborhood_min_border_true :
    (∀ (s : Store) (image : Nat) (F : Footprint) (out : Option Nat),
      image < s.next → (∀ o, out = some o → o < s.next) →
      ∀ i, i < (s.read image).h → ∀ j, j < (s.read image).w →
        ((resultImg (binary_erosion s image (FootprintArg.single F) out)).pix i j = true ↔
          ∀ o : Pos, F.offMem o →
            (s.read image).get true ((i : Int) + o.1, (j : Int) + o.2) = true)) ∧
    (resultImg (binary_erosion demoStoreT 0 (FootprintArg.single full3) none)).sameAs
      allTrue3 := by
  constructor
  · intro s image F out himg hout i hi j hj
    obtain ⟨s', t, heq, hread, _⟩ :=
      binary_erosion_spec s image (FootprintArg.single F) out trivial himg hout
    rw [heq]
    show (s'.read (outIdOf s out)).pix i j = true ↔ _
    rw [hread]
    exact erodeOnce_pix_iff F (s.read image) i j
  · decide

/-- C1 witness: the characterization applied to the all-true store at
position (0, 0). -/
theorem C1_erosion_neighborhood_min_border_true_witness :
    (0 : Nat) < demoStoreT.next ∧
    ((resultImg (binary_erosion demoStoreT 0
        (FootprintArg.single full3) none)).pix 0 0 = true ↔
      ∀ o : Pos, full3.offMem o →
        (demoStoreT.read 0).get true ((0 : Int) + o.1, (0 : Int) + o.2) = true) :=
  ⟨by decide,
    C1_erosion_neighborhood_min_border_true.1 demoStoreT 0 full3 none (by decide)
      (by intro o h; cases h) 0 (by decide) 0 (by decide)⟩

/-- C2: for every image and every single footprint, `binary_dilation` sets
each output position to the logical OR over the footprint neighborhood
(the neighborhood the primitive applies mirrored about the anchor),
treating every out-of-bounds neighbor position as false; in particular,
dilating an all-false image with any footprint yields an all-false
result. -/
theorem C2_dilation_neighborhood_max_border_false :
    (∀ (s : Store) (image : Nat) (F : Footprint) (out : Option Nat),
      image < s.next → (∀ o, out = some o → o < s.next) →
      ∀ i, i < (s.read image).h → ∀ j, j < (s.read image).w →
        ((resultImg (binary_dilation s image (FootprintArg.single F) out)).pix i j = true ↔
          ∃ o : Pos, F.offMem o ∧
            (s.read image).get false ((i : Int) - o.1, (j : Int) - o.2) = true)) ∧
    (∀ F : Footprint,
      (resultImg (binary_dilation demoStoreF 0 (FootprintArg.single F) none)).sameAs
        allFalse3) := by
  constructor
  · intro s image F out himg hout i hi j hj
    obtain ⟨s', t, heq, hread, _⟩ :=
      binary_dilation_spec s image (FootprintArg.single F) out trivial himg hout
    rw [heq]
    show (s'.read (outIdOf s out)).pix i j = true ↔ _
    rw [hread]
    exact dilateOnce_pix_iff F (s.read image) i j
  · intro F
    obtain ⟨s', t, heq, hread, _⟩ :=
      binary_dilation_spec demoStoreF 0 (FootprintArg.single F) none trivial
        Nat.zero_lt_one (by intro o h; cases h)
    unfold resultImg
    rw [heq]
    show (s'.read (outIdOf demoStoreF none)).sameAs allFalse3
    rw [hread]
    refine ⟨rfl, rfl, ?_⟩
    intro i hi j hj
    show (dilateOnce F allFalse3).pix i j = false
    by_contra hb
    rw [Bool.not_eq_false] at hb
    obtain ⟨o, _, hg⟩ := (dilateOnce_pix_iff F allFalse3 i j).mp hb
    obtain ⟨_, hpix⟩ := (get_false_iff allFalse3 _).mp hg
    simp [allFalse3] at hpix

/-- C2 witness: the characterization applied to the all-false store at
position (0, 0) with the full 3x3 footprint. -/
theorem C2_dilation_neighborhood_max_border_false_witness :
    (0 : Nat) < demoStoreF.next ∧
    ((resultImg (binary_dilation demoStoreF 0
        (FootprintArg.single full3) none)).pix 0 0 = true ↔
      ∃ o : Pos, full3.offMem o ∧
        (demoStoreF.read 0).get false ((0 : Int) - o.1, (0 : Int) - o.2) = true) :=
  ⟨by decide,
    C2_dilation_neighborhood_max_border_false.1 demoStoreF 0 full3 none (by decide)
      (by intro o h; cases h) 0 (by decide) 0 (by decide)⟩

/-- C9: every operator call with an explicit out buffer returns that very
buffer id, filled with the correct result (single-footprint case for
erosion and dilation, any well-formed footprint for opening and closing);
and when no out buffer is supplied, the freshly allocated buffer is filled
and returned. -/
theorem C9_out_buffer_returned_filled :
    (∀ (s : Store) (image : Nat) (F : Footprint) (o : Nat),
      resultId (binary_erosion s image (FootprintArg.single F) (some o)) = some o ∧
      resultImg (binary_erosion s image (FootprintArg.single F) (some o)) =
        erodeOnce F (s.read image) ∧
      resultId (binary_dilation s image (FootprintArg.single F) (some o)) = some o ∧
      resultImg (binary_dilation s image (FootprintArg.single F) (some o)) =
        dilateOnce F (s.read image)) ∧
    (∀ (s : Store) (image : Nat) (F : Footprint), image < s.next →
      resultId (binary_erosion s image (FootprintArg.single F) none) = some s.next ∧
      resultImg (binary_erosion s image (FootprintArg.single F) none) =
        erodeOnce F (s.read image) ∧
      resultId (binary_dilation s image (FootprintArg.single F) none) = some s.next ∧
      resultImg (binary_dilation s image (FootprintArg.single F) none) =
        dilateOnce F (s.read image)) ∧
    (∀ (s : Store) (image : Nat) (fp : FootprintArg) (o : Nat),
      fp.ok → image < s.next → o < s.next →
      resultId (binary_opening s image fp (some o)) = some o ∧
      resultId (binary_closing s image fp (some o)) = some o) := by
  refine ⟨?_, ?_, ?_⟩
  · intro s image F o
    refine ⟨rfl, ?_, rfl, ?_⟩
    · show ((s.write o (erodeOnce F (s.read image))).read o) = _
      rw [Store.read_write_self]
    · show ((s.write o (dilateOnce F (s.read image))).read o) = _
      rw [Store.read_write_self]
  · intro s image F himg
    refine ⟨rfl, ?_, rfl, ?_⟩
    · show ((_ : Store).read s.next) = _
      dsimp only
      simp only [Store.alloc_id]
      rw [Store.read_write_self, Store.read_alloc_ne _ _ _ (by omega)]
    · show ((_ : Store).read s.next) = _
      dsimp only
      simp only [Store.alloc_id]
      rw [Store.read_write_self, Store.read_alloc_ne _ _ _ (by omega)]
  · intro s image fp o hok himg ho
    obtain ⟨s2, rid, t1, t2, heq, hrid, _⟩ :=
      binary_opening_spec s image fp (some o) hok himg (by rintro o2 ⟨rfl⟩; exact ho)
    obtain ⟨s2c, ridc, t1c, t2c, heqc, hridc, _⟩ :=
      binary_closing_spec s image fp (some o) hok himg (by rintro o2 ⟨rfl⟩; exact ho)
    constructor
    · rw [heq]
      show some rid = some o
      rw [hrid o rfl]
    · rw [heqc]
      show some ridc = some o
      rw [hridc o rfl]

/-- C9 witness: eroding with an explicit out buffer (cell 0 of the
all-true store) returns cell 0 filled with the erosion result. -/
theorem C9_out_buffer_returned_filled_witness :
    resultId (binary_erosion demoStoreT 0 (FootprintArg.single full3) (some 0)) =
      some 0 ∧
    resultImg (binary_erosion demoStoreT 0 (FootprintArg.single full3) (some 0)) =
      erodeOnce full3 (demoStoreT.read 0) :=
  ⟨(C9_out_buffer_returned_filled.1 demoStoreT 0 full3 0).1,
    (C9_out_buffer_returned_filled.1 demoStoreT 0 full3 0).2.1⟩

/-- C3: the Sequential Application Driver invokes the reducer first with
the original image as source and the output buffer as destination, and at
every subsequent step with a distinct fresh copy of the output buffer's
current contents as source (never the buffer itself) and the same output
buffer as destination; at no step after the first do source and
destination coincide. -/
theorem C3_driver_copy_discipline :
    ∀ (f : Footprint → Nat → Image → Image) (s : Store) (image out : Nat)
      (fps : List (Footprint × Nat)),
      2 ≤ fps.length → image < s.next → out < s.next →
      ∃ s' c0 tl,
        iterate_binary_func f s image out fps = Except.ok (s', out, c0 :: tl) ∧
        c0.src = image ∧ c0.dst = out ∧ c0.srcVal = s.read image ∧
        tl ≠ [] ∧
        ∀ c ∈ tl, c.dst = out ∧ c.src ≠ image ∧ c.src ≠ out ∧ c.src ≠ c.dst ∧
          c.srcVal = c.dstPre := by
  intro f s image out fps hlen himg hout
  cases fps with
  | nil => simp at hlen
  | cons fp0 rest =>
      obtain ⟨s', t, heq, hread, hframe, hnext, hiters, tl, htl, htail⟩ :=
        iterate_binary_func_spec f s image out fp0 rest
      subst htl
      refine ⟨s', _, tl, heq, rfl, rfl, rfl, ?_, ?_⟩
      · have hrest : rest ≠ [] := by
          intro h
          subst h
          simp at hlen
        have hlen2 : tl.length = rest.length := by
          have := congrArg List.length hiters
          simpa using this
        intro h
        subst h
        simp at hlen2
        exact hrest (List.eq_nil_of_length_eq_zero hlen2.symm)
      · intro c hc
        obtain ⟨h1, h2, h3⟩ := htail c hc
        exact ⟨h1, by omega, by omega, by rw [h1]; omega, h3⟩

/-- C3 witness: a concrete two-step decomposed run. -/
theorem C3_driver_copy_discipline_witness :
    2 ≤ ([(full3, 1), (full3, 1)] : List (Footprint × Nat)).length ∧
    (0 : Nat) < demoStoreT.next ∧
    ∃ s' c0 tl,
      iterate_binary_func (fun fp n X => applyIter (erodeOnce fp) n X)
          demoStoreT 0 0 [(full3, 1), (full3, 1)] = Except.ok (s', 0, c0 :: tl) ∧
      c0.src = 0 ∧ c0.dst = 0 ∧ c0.srcVal = demoStoreT.read 0 ∧
      tl ≠ [] ∧
      ∀ c ∈ tl, c.dst = 0 ∧ c.src ≠ 0 ∧ c.src ≠ 0 ∧ c.src ≠ c.dst ∧
        c.srcVal = c.dstPre :=
  ⟨by decide, by decide,
    C3_driver_copy_discipline (fun fp n X => applyIter (erodeOnce fp) n X)
      demoStoreT 0 0 [(full3, 1), (full3, 1)] (by decide) (by decide) (by decide)⟩

/-- C7 counterexample: an operator call whose decomposed footprint
contains a repeat count of 0 (a non-positive count) does NOT fail: it
returns normally, and its trace shows a reducer invocation with iteration
count 0 — a reduction step was attempted with no prior usage error. -/
theorem C7_counterexample :
    isOk (binary_erosion demoStoreT 0 (FootprintArg.seq [(full3, 0)]) none) ∧
    (resultTrace (binary_erosion demoStoreT 0
        (FootprintArg.seq [(full3, 0)]) none)).map RedCall.iters = [0] := by
  constructor
  · show True
    trivial
  · rfl

/-- C7 amended: an empty decomposed footprint sequence fails fast (the
driver's sequence indexing raises IndexError before any reducer call);
but a sequence pair whose repeat count is not at least 1 is NOT rejected —
the driver succeeds on every non-empty sequence, forwarding each repeat
count (including 0) unchanged to the reducer. -/
theorem C7_empty_fails_nonpositive_not_rejected :
    (∀ (f : Footprint → Nat → Image → Image) (s : Store) (image out : Nat),
      iterate_binary_func f s image out [] =
        Except.error "IndexError: footprint sequence is empty") ∧
    (∀ (f : Footprint → Nat → Image → Image) (s : Store) (image out : Nat)
      (fps : List (Footprint × Nat)), fps ≠ [] →
      ∃ s' t, iterate_binary_func f s image out fps = Except.ok (s', out, t) ∧
        t.map RedCall.iters = fps.map Prod.snd) := by
  constructor
  · intro f s image out
    rfl
  · intro f s image out fps hne
    cases fps with
    | nil => exact absurd rfl hne
    | cons fp0 rest =>
        obtain ⟨s', t, heq, _, _, _, hiters, _⟩ :=
          iterate_binary_func_spec f s image out fp0 rest
        exact ⟨s', t, heq, hiters⟩

/-- C7 witness: the non-empty case applied to a concrete sequence with a
zero repeat count; the driver succeeds and passes the 0 through. -/
theorem C7_empty_fails_nonpositive_not_rejected_witness :
    ([((full3 : Footprint), (0 : Nat))] ≠ ([] : List (Footprint × Nat))) ∧
    ∃ s' t, iterate_binary_func (fun fp n X => applyIter (erodeOnce fp) n X)
        demoStoreT 0 0 [(full3, 0)] = Except.ok (s', 0, t) ∧
      t.map RedCall.iters = ([(full3, 0)] : List (Footprint × Nat)).map Prod.snd :=
  ⟨by simp,
    C7_empty_fails_nonpositive_not_rejected.2
      (fun fp n X => applyIter (erodeOnce fp) n X) demoStoreT 0 0 [(full3, 0)]
      (by simp)⟩

/-- C4: `binary_opening` equals `binary_dilation` applied to the result of
`binary_erosion` with the same footprint, and the intermediate erosion
result is always written into a freshly allocated buffer (the cell
allocated at call entry), never into the caller-supplied out buffer. -/
theorem C4_opening_is_dilation_of_erosion_fresh_intermediate :
    ∀ (s : Store) (image : Nat) (fp : FootprintArg) (o : Nat),
      fp.ok → image < s.next → o < s.next →
      ∃ s2 t1 t2,
        binary_opening s image fp (some o) = Except.ok (s2, o, t1 ++ t2) ∧
        s2.read o = dilatePure fp (erodePure fp (s.read image)) ∧
        t1 ≠ [] ∧
        (∀ c ∈ t1, c.dst = s.next ∧ c.dst ≠ o) := by
  intro s image fp o hok himg ho
  obtain ⟨s2, rid, t1, t2, heq, hrid, _, hread, htne1, htne2, htr1, htr2⟩ :=
    binary_opening_spec s image fp (some o) hok himg (by rintro o2 ⟨rfl⟩; exact ho)
  have hro : rid = o := hrid o rfl
  subst hro
  refine ⟨s2, t1, t2, heq, ?_, htne1, ?_⟩
  · rw [hread, erodePure_content fp _ hok, dilatePure_content fp _ hok]
  · intro c hc
    have h1 := (htr1 c hc).1
    exact ⟨h1, by omega⟩

/-- C4 witness: opening the all-true store with the full footprint and an
explicit out cell. -/
theorem C4_opening_is_dilation_of_erosion_fresh_intermediate_witness :
    (FootprintArg.single full3).ok ∧ (0 : Nat) < demoStoreT.next ∧
    ∃ s2 t1 t2,
      binary_opening demoStoreT 0 (FootprintArg.single full3) (some 0) =
        Except.ok (s2, 0, t1 ++ t2) ∧
      s2.read 0 = dilatePure (FootprintArg.single full3)
        (erodePure (FootprintArg.single full3) (demoStoreT.read 0)) ∧
      t1 ≠ [] ∧
      (∀ c ∈ t1, c.dst = demoStoreT.next ∧ c.dst ≠ 0) :=
  ⟨trivial, by decide,
    C4_opening_is_dilation_of_erosion_fresh_intermediate demoStoreT 0
      (FootprintArg.single full3) 0 trivial (by decide) (by decide)⟩

/-- C5: `binary_closing` equals `binary_erosion` applied to the result of
`binary_dilation` with the same footprint, with the intermediate dilation
result held in a freshly allocated buffer that never aliases the final
output buffer. -/
theorem C5_closing_is_erosion_of_dilation_fresh_intermediate :
    ∀ (s : Store) (image : Nat) (fp : FootprintArg) (o : Nat),
      fp.ok → image < s.next → o < s.next →
      ∃ s2 t1 t2,
        binary_closing s image fp (some o) = Except.ok (s2, o, t1 ++ t2) ∧
        s2.read o = erodePure fp (dilatePure fp (s.read image)) ∧
        t1 ≠ [] ∧
        (∀ c ∈ t1, c.dst = s.next ∧ c.dst ≠ o) := by
  intro s image fp o hok himg ho
  obtain ⟨s2, rid, t1, t2, heq, hrid, _, hread, htne1, htne2, htr1, htr2⟩ :=
    binary_closing_spec s image fp (some o) hok himg (by rintro o2 ⟨rfl⟩; exact ho)
  have hro : rid = o := hrid o rfl
  subst hro
  refine ⟨s2, t1, t2, heq, ?_, htne1, ?_⟩
  · rw [hread, dilatePure_content fp _ hok, erodePure_content fp _ hok]
  · intro c hc
    have h1 := (htr1 c hc).1
    exact ⟨h1, by omega⟩

/-- C5 witness: closing the all-false store with the full footprint and an
explicit out cell. -/
theorem C5_closing_is_erosion_of_dilation_fresh_intermediate_witness :
    (FootprintArg.single full3).ok ∧ (0 : Nat) < demoStoreF.next ∧
    ∃ s2 t1 t2,
      binary_closing demoStoreF 0 (FootprintArg.single full3) (some 0) =
        Except.ok (s2, 0, t1 ++ t2) ∧
      s2.read 0 = erodePure (FootprintArg.single full3)
        (dilatePure (FootprintArg.single full3) (demoStoreF.read 0)) ∧
      t1 ≠ [] ∧
      (∀ c ∈ t1, c.dst = demoStoreF.next ∧ c.dst ≠ 0) :=
  ⟨trivial, by decide,
    C5_closing_is_erosion_of_dilation_fresh_intermediate demoStoreF 0
      (FootprintArg.single full3) 0 trivial (by decide) (by decide)⟩

/-- C10: for a single footprint, `binary_opening` and `binary_closing`
are correct even when the caller passes the same cell as both image and
out: the first stage writes only into the freshly allocated intermediate
(never the caller's cell), the second stage reads only the intermediate
(or later allocations) while writing the caller's cell, no reducer call
reads and writes the same array, and the final contents are the composite
of the original image contents. -/
theorem C10_aliased_image_out_safe :
    ∀ (s : Store) (image : Nat) (F : Footprint), image < s.next →
      (∃ s2 t1 t2,
        binary_opening s image (FootprintArg.single F) (some image) =
          Except.ok (s2, image, t1 ++ t2) ∧
        s2.read image = dilateOnce F (erodeOnce F (s.read image)) ∧
        (∀ c ∈ t1, c.dst = s.next ∧ c.dst ≠ image) ∧
        (∀ c ∈ t2, c.dst = image ∧ (c.src = s.next ∨ s.next < c.src)) ∧
        (∀ c ∈ t1 ++ t2, c.src ≠ c.dst)) ∧
      (∃ s2 t1 t2,
        binary_closing s image (FootprintArg.single F) (some image) =
          Except.ok (s2, image, t1 ++ t2) ∧
        s2.read image = erodeOnce F (dilateOnce F (s.read image)) ∧
        (∀ c ∈ t1, c.dst = s.next ∧ c.dst ≠ image) ∧
        (∀ c ∈ t2, c.dst = image ∧ (c.src = s.next ∨ s.next < c.src)) ∧
        (∀ c ∈ t1 ++ t2, c.src ≠ c.dst)) := by
  intro s image F himg
  constructor
  · obtain ⟨s2, rid, t1, t2, heq, hrid, _, hread, htne1, htne2, htr1, htr2⟩ :=
      binary_opening_spec s image (FootprintArg.single F) (some image) trivial himg
        (by rintro o2 ⟨rfl⟩; exact himg)
    have hro : rid = image := hrid image rfl
    subst hro
    refine ⟨s2, t1, t2, heq, hread, ?_, ?_, ?_⟩
    · intro c hc
      have h1 := (htr1 c hc).1
      exact ⟨h1, by omega⟩
    · intro c hc
      obtain ⟨h1, h2⟩ := htr2 c hc
      refine ⟨h1, ?_⟩
      rcases h2 with h2 | h2
      · exact Or.inl h2
      · exact Or.inr h2.1
    · intro c hc
      rw [List.mem_append] at hc
      rcases hc with hc | hc
      · obtain ⟨h1, h2⟩ := htr1 c hc
        rcases h2 with h2 | h2 <;> omega
      · obtain ⟨h1, h2⟩ := htr2 c hc
        rcases h2 with h2 | h2 <;> omega
  · obtain ⟨s2, rid, t1, t2, heq, hrid, _, hread, htne1, htne2, htr1, htr2⟩ :=
      binary_closing_spec s image (FootprintArg.single F) (some image) trivial himg
        (by rintro o2 ⟨rfl⟩; exact himg)
    have hro : rid = image := hrid image rfl
    subst hro
    refine ⟨s2, t1, t2, heq, hread, ?_, ?_, ?_⟩
    · intro c hc
      have h1 := (htr1 c hc).1
      exact ⟨h1, by omega⟩
    · intro c hc
      obtain ⟨h1, h2⟩ := htr2 c hc
      refine ⟨h1, ?_⟩
      rcases h2 with h2 | h2
      · exact Or.inl h2
      · exact Or.inr h2.1
    · intro c hc
      rw [List.mem_append] at hc
      rcases hc with hc | hc
      · obtain ⟨h1, h2⟩ := htr1 c hc
        rcases h2 with h2 | h2 <;> omega
      · obtain ⟨h1, h2⟩ := htr2 c hc
        rcases h2 with h2 | h2 <;> omega

/-- C10 witness: opening and closing the all-true store with cell 0 as
both image and out. -/
theorem C10_aliased_image_out_safe_witness :
    (0 : Nat) < demoStoreT.next ∧
    (∃ s2 t1 t2,
      binary_opening demoStoreT 0 (FootprintArg.single full3) (some 0) =
        Except.ok (s2, 0, t1 ++ t2) ∧
      s2.read 0 = dilateOnce full3 (erodeOnce full3 (demoStoreT.read 0)) ∧
      (∀ c ∈ t1, c.dst = demoStoreT.next ∧ c.dst ≠ 0) ∧
      (∀ c ∈ t2, c.dst = 0 ∧ (c.src = demoStoreT.next ∨ demoStoreT.next < c.src)) ∧
      (∀ c ∈ t1 ++ t2, c.src ≠ c.dst)) ∧
    (∃ s2 t1 t2,
      binary_closing demoStoreT 0 (FootprintArg.single full3) (some 0) =
        Except.ok (s2, 0, t1 ++ t2) ∧
      s2.read 0 = erodeOnce full3 (dilateOnce full3 (demoStoreT.read 0)) ∧
      (∀ c ∈ t1, c.dst = demoStoreT.next ∧ c.dst ≠ 0) ∧
      (∀ c ∈ t2, c.dst = 0 ∧ (c.src = demoStoreT.next ∨ demoStoreT.next < c.src)) ∧
      (∀ c ∈ t1 ++ t2, c.src ≠ c.dst)) :=
  ⟨by decide, (C10_aliased_image_out_safe demoStoreT 0 full3 (by decide)).1,
    (C10_aliased_image_out_safe demoStoreT 0 full3 (by decide)).2⟩

/-! ### The erosion/dilation adjunction and idempotence of opening/closing -/

theorem inB_toNat_lt {X : Image} {p : Pos} (h : X.inB p) :
    p.1.toNat < X.h ∧ p.2.toNat < X.w := by
  obtain ⟨h1, h2, h3, h4⟩ := h
  omega

theorem Image.subset_refl (A : Image) : A.subset A :=
  fun _ _ _ _ h => h

theorem bool_eq_of_iff {a b : Bool} (h : a = true ↔ b = true) : a = b := by
  cases a <;> cases b <;> simp_all

/-- Mutual pointwise inclusion of same-shaped arrays is equality. -/
theorem subset_antisymm {A B : Image} (hh : A.h = B.h) (hw : A.w = B.w)
    (h1 : A.subset B) (h2 : B.subset A) : A.sameAs B := by
  refine ⟨hh, hw, ?_⟩
  intro i hi j hj
  refine bool_eq_of_iff ⟨h1 i hi j hj, h2 i (hh ▸ hi) j (hw ▸ hj)⟩

theorem get_mono_true {X Y : Image} (hh : X.h = Y.h) (hw : X.w = Y.w)
    (hs : X.subset Y) (p : Pos) (h : X.get true p = true) : Y.get true p = true := by
  rw [get_true_iff] at h ⊢
  intro hin
  have hinX : X.inB p := by
    unfold Image.inB at hin ⊢
    omega
  have hlt := inB_toNat_lt hinX
  exact hs _ hlt.1 _ hlt.2 (h hinX)

theorem get_mono_false {X Y : Image} (hh : X.h = Y.h) (hw : X.w = Y.w)
    (hs : X.subset Y) (p : Pos) (h : X.get false p = true) : Y.get false p = true := by
  rw [get_false_iff] at h ⊢
  obtain ⟨hin, hpix⟩ := h
  have hlt := inB_toNat_lt hin
  refine ⟨?_, hs _ hlt.1 _ hlt.2 hpix⟩
  unfold Image.inB at hin ⊢
  omega

theorem erodeOnce_mono {X Y : Image} (hh : X.h = Y.h) (hw : X.w = Y.w)
    (hs : X.subset Y) (F : Footprint) :
    (erodeOnce F X).subset (erodeOnce F Y) := by
  intro i _ j _ h
  rw [erodeOnce_pix_iff] at h ⊢
  intro o ho
  exact get_mono_true hh hw hs _ (h o ho)

theorem dilateOnce_mono {X Y : Image} (hh : X.h = Y.h) (hw : X.w = Y.w)
    (hs : X.subset Y) (F : Footprint) :
    (dilateOnce F X).subset (dilateOnce F Y) := by
  intro i _ j _ h
  rw [dilateOnce_pix_iff] at h ⊢
  obtain ⟨o, ho, hg⟩ := h
  exact ⟨o, ho, get_mono_false hh hw hs _ hg⟩

/-- Values of same-shaped, pointwise-equal arrays agree under every
bounds-checked read. -/
theorem get_congr {A B : Image} (h : A.sameAs B) (b : Bool) (p : Pos) :
    A.get b p = B.get b p := by
  obtain ⟨hh, hw, hp⟩ := h
  unfold Image.get
  have hiff : A.inB p ↔ B.inB p := by
    unfold Image.inB
    omega
  by_cases hin : A.inB p
  · rw [if_pos hin, if_pos (hiff.mp hin)]
    have hlt := inB_toNat_lt hin
    exact hp _ hlt.1 _ hlt.2
  · rw [if_neg hin, if_neg (fun hb => hin (hiff.mpr hb))]

theorem erodeOnce_congr {A B : Image} (h : A.sameAs B) (F : Footprint) :
    (erodeOnce F A).sameAs (erodeOnce F B) := by
  refine ⟨h.1, h.2.1, ?_⟩
  intro i _ j _
  refine bool_eq_of_iff ?_
  rw [erodeOnce_pix_iff, erodeOnce_pix_iff]
  constructor
  · intro hA o ho
    rw [← get_congr h]
    exact hA o ho
  · intro hB o ho
    rw [get_congr h]
    exact hB o ho

theorem dilateOnce_congr {A B : Image} (h : A.sameAs B) (F : Footprint) :
    (dilateOnce F A).sameAs (dilateOnce F B) := by
  refine ⟨h.1, h.2.1, ?_⟩
  intro i _ j _
  refine bool_eq_of_iff ?_
  rw [dilateOnce_pix_iff, dilateOnce_pix_iff]
  constructor
  · intro hA
    obtain ⟨o, ho, hg⟩ := hA
    rw [get_congr h] at hg
    exact ⟨o, ho, hg⟩
  · intro hB
    obtain ⟨o, ho, hg⟩ := hB
    rw [← get_congr h] at hg
    exact ⟨o, ho, hg⟩

/-- The reducer's dilation and erosion passes form an adjunction on
same-shaped arrays: `dilate F Y ⊆ X` iff `Y ⊆ erode F X`.  The border
values (false for dilation, true for erosion) are exactly the ones that
make this hold up to the array boundary. -/
theorem dilate_erode_adjunction (F : Footprint) {X Y : Image}
    (hh : Y.h = X.h) (hw : Y.w = X.w) :
    (dilateOnce F Y).subset X ↔ Y.subset (erodeOnce F X) := by
  constructor
  · intro h i hi j hj hy
    rw [erodeOnce_pix_iff]
    intro o ho
    rw [get_true_iff]
    intro hin
    have hlt := inB_toNat_lt hin
    have ha : (((i : Int) + o.1).toNat : Int) = (i : Int) + o.1 := by
      obtain ⟨h1, _⟩ := hin
      exact Int.toNat_of_nonneg h1
    have hb : (((j : Int) + o.2).toNat : Int) = (j : Int) + o.2 := by
      obtain ⟨_, _, h3, _⟩ := hin
      exact Int.toNat_of_nonneg h3
    apply h _ (by show _ < Y.h; omega) _ (by show _ < Y.w; omega)
    rw [dilateOnce_pix_iff]
    refine ⟨o, ho, ?_⟩
    have hc1 : ((((i : Int) + o.1).toNat : Int) - o.1) = (i : Int) := by omega
    have hc2 : ((((j : Int) + o.2).toNat : Int) - o.2) = (j : Int) := by omega
    rw [hc1, hc2, get_natCast Y false i j hi hj]
    exact hy
  · intro h i hi j hj hd
    obtain ⟨o, ho, hg⟩ := (dilateOnce_pix_iff F Y i j).mp hd
    obtain ⟨hin, hpix⟩ := (get_false_iff Y _).mp hg
    have hlt := inB_toNat_lt hin
    have herode := h _ hlt.1 _ hlt.2 hpix
    rw [erodeOnce_pix_iff] at herode
    have hx := herode o ho
    have hc1 : ((((i : Int) - o.1).toNat : Int) + o.1) = (i : Int) := by
      obtain ⟨h1, _⟩ := hin
      omega
    have hc2 : ((((j : Int) - o.2).toNat : Int) + o.2) = (j : Int) := by
      obtain ⟨_, _, h3, _⟩ := hin
      omega
    rw [hc1, hc2] at hx
    have hi2 : i < X.h := by
      have : i < (dilateOnce F Y).h := hi
      rw [dilateOnce_h] at this
      omega
    have hj2 : j < X.w := by
      have : j < (dilateOnce F Y).w := hj
      rw [dilateOnce_w] at this
      omega
    rw [get_natCast X true i j hi2 hj2] at hx
    exact hx

/-- Opening is anti-extensive: `dilate F (erode F X) ⊆ X`. -/
theorem open_anti (F : Footprint) (X : Image) :
    (dilateOnce F (erodeOnce F X)).subset X :=
  (@dilate_erode_adjunction F X (erodeOnce F X) rfl rfl).mpr
    (Image.subset_refl (erodeOnce F X))

/-- Closing is extensive: `Y ⊆ erode F (dilate F Y)`. -/
theorem close_ext (F : Footprint) (Y : Image) :
    Y.subset (erodeOnce F (dilateOnce F Y)) :=
  (@dilate_erode_adjunction F (dilateOnce F Y) Y rfl rfl).mp
    (Image.subset_refl (dilateOnce F Y))

/-- Composition law `erode ∘ dilate ∘ erode = erode` (pointwise). -/
theorem ede_eq_e (F : Footprint) (X : Image) :
    (erodeOnce F (dilateOnce F (erodeOnce F X))).sameAs (erodeOnce F X) := by
  refine subset_antisymm rfl rfl ?_ ?_
  · exact @erodeOnce_mono (dilateOnce F (erodeOnce F X)) X rfl rfl (open_anti F X) F
  · exact close_ext F (erodeOnce F X)

/-- Composition law `dilate ∘ erode ∘ dilate = dilate` (pointwise). -/
theorem ded_eq_d (F : Footprint) (Y : Image) :
    (dilateOnce F (erodeOnce F (dilateOnce F Y))).sameAs (dilateOnce F Y) := by
  refine subset_antisymm rfl rfl ?_ ?_
  · exact open_anti F (dilateOnce F Y)
  · exact @dilateOnce_mono Y (erodeOnce F (dilateOnce F Y)) rfl rfl (close_ext F Y) F

/-- A 1x3 footprint selecting the offsets `(0,-1)` and `(0,0)` —
together with `F2d` a valid decomposition whose Minkowski composite is
the offset set containing `(0,0)` and `(0,1)`. -/
def F1d : Footprint := ⟨1, 3, fun _ j => j != 2⟩

/-- A 1x3 footprint selecting only the offset `(0, 1)`. -/
def F2d : Footprint := ⟨1, 3, fun _ j => j == 2⟩

/-- The 1x4 image `[[1,1,0,0]]`. -/
def X14 : Image := ⟨1, 4, fun _ j => decide (j < 2)⟩

/-- The 1x4 image `[[0,1,0,0]]`. -/
def X14b : Image := ⟨1, 4, fun _ j => j == 1⟩

/-- C8 counterexample: with the decomposed footprint sequence
`[(F1d,1),(F2d,1)]` neither opening nor closing is idempotent: opening
the image `[[1,1,0,0]]` once yields `[[0,1,0,1]]` but a second opening
yields `[[0,0,0,1]]`, and closing `[[0,1,0,0]]` once yields
`[[0,1,0,1]]` but a second closing yields `[[0,1,1,1]]` — a border
artifact of the chained passes (each step re-extends the intermediate
with its border value). -/
theorem C8_counterexample :
    ¬ (openPure (FootprintArg.seq [(F1d, 1), (F2d, 1)])
        (openPure (FootprintArg.seq [(F1d, 1), (F2d, 1)]) X14)).sameAs
      (openPure (FootprintArg.seq [(F1d, 1), (F2d, 1)]) X14) ∧
    ¬ (closePure (FootprintArg.seq [(F1d, 1), (F2d, 1)])
        (closePure (FootprintArg.seq [(F1d, 1), (F2d, 1)]) X14b)).sameAs
      (closePure (FootprintArg.seq [(F1d, 1), (F2d, 1)]) X14b) := by
  constructor
  · decide
  · decide

/-- C8 (amended): opening and closing are idempotent for every image and
every single (non-decomposed) footprint: opening (closing) applied twice
equals opening (closing) applied once.  For a single footprint this holds
including the border policy, because erosion (border true) and dilation
(border false) are adjoint on the finite grid; for decomposed footprint
sequences idempotence can fail at the border (see the counterexample). -/
theorem C8_opening_closing_idempotent :
    ∀ (X : Image) (F : Footprint),
      (openPure (FootprintArg.single F)
        (openPure (FootprintArg.single F) X)).sameAs
        (openPure (FootprintArg.single F) X) ∧
      (closePure (FootprintArg.single F)
        (closePure (FootprintArg.single F) X)).sameAs
        (closePure (FootprintArg.single F) X) := by
  intro X F
  have hop : ∀ Y : Image,
      openPure (FootprintArg.single F) Y = dilateOnce F (erodeOnce F Y) := by
    intro Y
    rw [openPure_content (FootprintArg.single F) Y trivial]
    rfl
  have hcl : ∀ Y : Image,
      closePure (FootprintArg.single F) Y = erodeOnce F (dilateOnce F Y) := by
    intro Y
    rw [closePure_content (FootprintArg.single F) Y trivial]
    rfl
  constructor
  · simp only [hop]
    exact dilateOnce_congr (ede_eq_e F X) F
  · simp only [hcl]
    exact erodeOnce_congr (ded_eq_d F X) F

/-! ### Decomposed sequences versus composite footprints -/

/-- Membership in the Minkowski sum of the offset sets of a chain of
footprints (the composite neighborhood the decomposition stands for). -/
def offSum : List Footprint → Pos → Prop
  | [], o => o = (0, 0)
  | F :: fs, o => ∃ o1 o2, F.offMem o1 ∧ offSum fs o2 ∧ o = o1 + o2

/-- Chained single erosion passes, first footprint applied first — the
content transformation of the driver on a sequence of unit repeat
counts. -/
def erodeSeq (X : Image) : List Footprint → Image
  | [] => X
  | F :: fs => erodeSeq (erodeOnce F X) fs

theorem erodeSeq_hw (fs : List Footprint) :
    ∀ X : Image, (erodeSeq X fs).h = X.h ∧ (erodeSeq X fs).w = X.w := by
  induction fs with
  | nil => intro X; exact ⟨rfl, rfl⟩
  | cons F fs ih =>
      intro X
      exact ⟨(ih (erodeOnce F X)).1, (ih (erodeOnce F X)).2⟩

theorem erodeSeq_append (l1 l2 : List Footprint) :
    ∀ X : Image, erodeSeq X (l1 ++ l2) = erodeSeq (erodeSeq X l1) l2 := by
  induction l1 with
  | nil => intro X; rfl
  | cons F fs ih => intro X; exact ih (erodeOnce F X)

theorem erodeSeq_replicate (F : Footprint) (n : Nat) :
    ∀ X : Image, erodeSeq X (List.replicate n F) = (erodeOnce F)^[n] X := by
  induction n with
  | zero => intro X; rfl
  | succ n ih =>
      intro X
      rw [List.replicate_succ]
      show erodeSeq (erodeOnce F X) (List.replicate n F) = _
      rw [ih (erodeOnce F X), Function.iterate_succ_apply]

theorem applyIter_pos (step : Image → Image) (n : Nat) (X : Image) (hn : n ≠ 0) :
    applyIter step n X = step^[n] X := by
  unfold applyIter
  rw [if_neg hn]

/-- The content transformation of a two-pair decomposed erosion is the
chain of single passes, `n1` of `F1` then `n2` of `F2`. -/
theorem seq2_content (F1 F2 : Footprint) (n1 n2 : Nat) (X : Image)
    (h1 : n1 ≠ 0) (h2 : n2 ≠ 0) :
    erodeContent (FootprintArg.seq [(F1, n1), (F2, n2)]) X =
      erodeSeq X (List.replicate n1 F1 ++ List.replicate n2 F2) := by
  show applyIter (erodeOnce F2) n2 (applyIter (erodeOnce F1) n1 X) = _
  rw [applyIter_pos _ _ _ h1, applyIter_pos _ _ _ h2, erodeSeq_append,
    erodeSeq_replicate, erodeSeq_replicate]

/-- If every composite-neighborhood position (relative to the full chain)
reads true with border value true, the chained erosion is true: the
chained result is always at least the composite result. -/
theorem erodeSeq_of_sum (fs : List Footprint) :
    ∀ (X : Image) (i j : Nat), i < X.h → j < X.w →
      (∀ o : Pos, offSum fs o →
        X.get true ((i : Int) + o.1, (j : Int) + o.2) = true) →
      (erodeSeq X fs).pix i j = true := by
  induction fs with
  | nil =>
      intro X i j hi hj h
      have hx := h (0, 0) rfl
      simpa [get_natCast X true i j hi hj] using hx
  | cons F fs ih =>
      intro X i j hi hj h
      show (erodeSeq (erodeOnce F X) fs).pix i j = true
      refine ih (erodeOnce F X) i j hi hj ?_
      intro o2 ho2
      rw [get_true_iff]
      intro hin
      obtain ⟨hn1, hn2, hn3, hn4⟩ := hin
      rw [erodeOnce_pix_iff]
      intro o1 ho1
      have hsum : offSum (F :: fs) (o1 + o2) := ⟨o1, o2, ho1, ho2, rfl⟩
      have hx := h (o1 + o2) hsum
      obtain ⟨a1, a2⟩ := o1
      obtain ⟨b1, b2⟩ := o2
      have e1 : ((((i : Int) + b1).toNat : Int)) = (i : Int) + b1 := by
        simpa using hn1
      have e2 : ((((j : Int) + b2).toNat : Int)) = (j : Int) + b2 := by
        simpa using hn3
      have e3 : ((((i : Int) + b1).toNat : Int) + a1, (((j : Int) + b2).toNat : Int) + a2) =
          ((i : Int) + ((a1, a2) + (b1, b2)).1, (j : Int) + ((a1, a2) + (b1, b2)).2) := by
        rw [Prod.ext_iff]
        constructor
        · show _ = (i : Int) + (a1 + b1)
          omega
        · show _ = (j : Int) + (a2 + b2)
          omega
      rw [e3]
      exact hx

/-- All composite-neighborhood positions of every suffix of the chain stay
in bounds at `(i, j)`. -/
def chainIn (fs : List Footprint) (X : Image) (i j : Nat) : Prop :=
  ∀ m, ∀ o : Pos, offSum (fs.drop m) o →
    X.inB ((i : Int) + o.1, (j : Int) + o.2)

/-- Where every suffix neighborhood stays in bounds, a true chained
erosion forces every composite-neighborhood position to be true: together
with `erodeSeq_of_sum` this is exact agreement with the composite
erosion in the interior. -/
theorem erodeSeq_to_sum (fs : List Footprint) :
    ∀ (X : Image) (i j : Nat),
      chainIn fs X i j →
      (erodeSeq X fs).pix i j = true →
      ∀ o : Pos, offSum fs o →
        X.get true ((i : Int) + o.1, (j : Int) + o.2) = true := by
  induction fs with
  | nil =>
      intro X i j hin h o ho
      have ho2 : o = ((0 : Int), (0 : Int)) := ho
      subst ho2
      rw [get_true_iff]
      intro _
      have hb := hin 0 (0, 0) rfl
      obtain ⟨hn1, hn2, hn3, hn4⟩ := hb
      have e1 : (((i : Int) + 0).toNat) = i := by omega
      have e2 : (((j : Int) + 0).toNat) = j := by omega
      rw [e1, e2]
      exact h
  | cons F fs ih =>
      intro X i j hin h o ho
      have hin2 : chainIn fs (erodeOnce F X) i j := by
        intro m o2 ho2
        exact hin (m + 1) o2 ho2
      have hall := ih (erodeOnce F X) i j hin2 h
      obtain ⟨o1, o2, ho1, ho2, rfl⟩ := ho
      have hg := hall o2 ho2
      have hb : X.inB ((i : Int) + o2.1, (j : Int) + o2.2) := hin 1 o2 ho2
      obtain ⟨hn1, hn2, hn3, hn4⟩ := hb
      rw [get_true_iff] at hg
      have hpix := hg ⟨hn1, hn2, hn3, hn4⟩
      rw [erodeOnce_pix_iff] at hpix
      have hx := hpix o1 ho1
      obtain ⟨a1, a2⟩ := o1
      obtain ⟨b1, b2⟩ := o2
      have e3 : ((((i : Int) + b1).toNat : Int) + a1, (((j : Int) + b2).toNat : Int) + a2) =
          ((i : Int) + ((a1, a2) + (b1, b2)).1, (j : Int) + ((a1, a2) + (b1, b2)).2) := by
        rw [Prod.ext_iff]
        constructor
        · show _ = (i : Int) + (a1 + b1)
          omega
        · show _ = (j : Int) + (a2 + b2)
          omega
      rw [e3] at hx
      exact hx

/-- C6 (amended): for a decomposed sequence `[(F1,n1),(F2,n2)]` with
positive repeat counts, driven erosion dominates erosion by the
Minkowski-sum-equivalent composite footprint `G` everywhere, and equals it
at every position whose suffix composite neighborhoods all stay in
bounds.  (Exact equality everywhere fails at the border; see the
counterexample.) -/
theorem C6_decomposition_dominates_agrees_in_interior :
    ∀ (s : Store) (image : Nat) (F1 F2 G : Footprint) (n1 n2 : Nat),
      image < s.next → n1 ≠ 0 → n2 ≠ 0 →
      (∀ o : Pos, G.offMem o ↔
        offSum (List.replicate n1 F1 ++ List.replicate n2 F2) o) →
      ∀ i j : Nat, i < (s.read image).h → j < (s.read image).w →
        ((resultImg (binary_erosion s image
            (FootprintArg.single G) none)).pix i j = true →
          (resultImg (binary_erosion s image
            (FootprintArg.seq [(F1, n1), (F2, n2)]) none)).pix i j = true) ∧
        (chainIn (List.replicate n1 F1 ++ List.replicate n2 F2)
            (s.read image) i j →
          (resultImg (binary_erosion s image
            (FootprintArg.seq [(F1, n1), (F2, n2)]) none)).pix i j =
            (resultImg (binary_erosion s image
              (FootprintArg.single G) none)).pix i j) := by
  intro s image F1 F2 G n1 n2 himg h1 h2 hG i j hi hj
  obtain ⟨sE, tE, heqE, hreadE, _⟩ :=
    binary_erosion_spec s image (FootprintArg.seq [(F1, n1), (F2, n2)]) none
      (by simp [FootprintArg.ok]) himg (by intro o h; cases h)
  obtain ⟨sC, tC, heqC, hreadC, _⟩ :=
    binary_erosion_spec s image (FootprintArg.single G) none trivial himg
      (by intro o h; cases h)
  have hE : resultImg (binary_erosion s image
      (FootprintArg.seq [(F1, n1), (F2, n2)]) none) =
      erodeSeq (s.read image) (List.replicate n1 F1 ++ List.replicate n2 F2) := by
    rw [heqE]
    show sE.read _ = _
    rw [hreadE, seq2_content _ _ _ _ _ h1 h2]
  have hC : resultImg (binary_erosion s image (FootprintArg.single G) none) =
      erodeOnce G (s.read image) := by
    rw [heqC]
    show sC.read _ = _
    rw [hreadC]
    rfl
  rw [hE, hC]
  constructor
  · intro hc
    refine erodeSeq_of_sum _ (s.read image) i j hi hj ?_
    intro o ho
    exact (erodeOnce_pix_iff G (s.read image) i j).mp hc o ((hG o).mpr ho)
  · intro hch
    refine bool_eq_of_iff ⟨?_, ?_⟩
    · intro he
      rw [erodeOnce_pix_iff]
      intro o ho
      exact erodeSeq_to_sum _ (s.read image) i j hch he o ((hG o).mp ho)
    · intro hc
      refine erodeSeq_of_sum _ (s.read image) i j hi hj ?_
      intro o ho
      exact (erodeOnce_pix_iff G (s.read image) i j).mp hc o ((hG o).mpr ho)

/-- A 1x1 all-true footprint, whose offset set is just the origin. -/
def ident1 : Footprint := ⟨1, 1, fun _ _ => true⟩

theorem ident1_offMem (o : Pos) : ident1.offMem o ↔ o = ((0 : Int), (0 : Int)) := by
  constructor
  · rintro ⟨k, l, hk, hl, _, hA, hB⟩
    obtain ⟨a, b⟩ := o
    simp only [ident1] at hk hl hA hB
    rw [Prod.ext_iff]
    exact ⟨by omega, by omega⟩
  · rintro rfl
    decide

theorem offSum_pair_ident (o : Pos) :
    offSum [ident1, ident1] o ↔ o = ((0 : Int), (0 : Int)) := by
  constructor
  · rintro ⟨o1, o2, h1, ⟨o3, o4, h3, h4, rfl⟩, rfl⟩
    rw [ident1_offMem] at h1 h3
    subst h1
    subst h3
    have h4a : o4 = ((0 : Int), (0 : Int)) := h4
    subst h4a
    decide
  · rintro rfl
    exact ⟨((0 : Int), (0 : Int)), ((0 : Int), (0 : Int)),
      (ident1_offMem _).mpr rfl,
      ⟨((0 : Int), (0 : Int)), ((0 : Int), (0 : Int)),
        (ident1_offMem _).mpr rfl, rfl, by decide⟩, by decide⟩

theorem chainIn_ident_allTrue3 : chainIn [ident1, ident1] allTrue3 0 0 := by
  intro m o ho
  have ho0 : o = ((0 : Int), (0 : Int)) := by
    match m with
    | 0 => exact (offSum_pair_ident o).mp ho
    | 1 =>
        obtain ⟨o1, o2, h1, h2, rfl⟩ := ho
        rw [ident1_offMem] at h1
        subst h1
        have h2a : o2 = ((0 : Int), (0 : Int)) := h2
        subst h2a
        decide
    | (k + 2) =>
        have hd : List.drop (k + 2) [ident1, ident1] = [] := by simp
        rw [hd] at ho
        exact ho
  subst ho0
  decide

/-- C6 witness: the amended theorem applied to the identity decomposition
`[(ident1,1),(ident1,1)]`, whose composite is `ident1` itself, on the
all-true store. -/
theorem C6_decomposition_dominates_agrees_in_interior_witness :
    (0 : Nat) < demoStoreT.next ∧ (1 : Nat) ≠ 0 ∧
    (∀ o : Pos, ident1.offMem o ↔
      offSum (List.replicate 1 ident1 ++ List.replicate 1 ident1) o) ∧
    (((resultImg (binary_erosion demoStoreT 0
        (FootprintArg.single ident1) none)).pix 0 0 = true →
      (resultImg (binary_erosion demoStoreT 0
        (FootprintArg.seq [(ident1, 1), (ident1, 1)]) none)).pix 0 0 = true) ∧
    (chainIn (List.replicate 1 ident1 ++ List.replicate 1 ident1)
        (demoStoreT.read 0) 0 0 →
      (resultImg (binary_erosion demoStoreT 0
        (FootprintArg.seq [(ident1, 1), (ident1, 1)]) none)).pix 0 0 =
        (resultImg (binary_erosion demoStoreT 0
          (FootprintArg.single ident1) none)).pix 0 0)) :=
  ⟨by decide, by decide,
    fun o => (ident1_offMem o).trans (offSum_pair_ident o).symm,
    C6_decomposition_dominates_agrees_in_interior demoStoreT 0 ident1 ident1
      ident1 1 1 (by decide) (by decide) (by decide)
      (fun o => (ident1_offMem o).trans (offSum_pair_ident o).symm)
      0 0 (by decide) (by decide)⟩

/-! ### The C6 counterexample: border effects break exact equality -/

/-- A 1x3 footprint selecting only the offset `(0, -1)`. -/
def F1c : Footprint := ⟨1, 3, fun _ j => j == 0⟩

/-- A 1x3 footprint selecting only the offset `(0, 1)`. -/
def F2c : Footprint := ⟨1, 3, fun _ j => j == 2⟩

/-- A 1x3 footprint selecting only the origin — the Minkowski-sum
composite of `F1c` and `F2c`. -/
def Gc : Footprint := ⟨1, 3, fun _ j => j == 1⟩

/-- A 1x1 all-false image. -/
def X11 : Image := ⟨1, 1, fun _ _ => false⟩

/-- A store hosting the 1x1 all-false image in cell 0. -/
def cexStore : Store := ⟨1, fun _ => X11⟩

theorem F1c_offMem (o : Pos) : F1c.offMem o ↔ o = ((0 : Int), (-1 : Int)) := by
  constructor
  · rintro ⟨k, l, hk, hl, hp, hA, hB⟩
    obtain ⟨a, b⟩ := o
    simp only [F1c] at hk hl hp hA hB
    rw [beq_iff_eq] at hp
    subst hp
    rw [Prod.ext_iff]
    exact ⟨by omega, by omega⟩
  · rintro rfl
    decide

theorem F2c_offMem (o : Pos) : F2c.offMem o ↔ o = ((0 : Int), (1 : Int)) := by
  constructor
  · rintro ⟨k, l, hk, hl, hp, hA, hB⟩
    obtain ⟨a, b⟩ := o
    simp only [F2c] at hk hl hp hA hB
    rw [beq_iff_eq] at hp
    subst hp
    rw [Prod.ext_iff]
    exact ⟨by omega, by omega⟩
  · rintro rfl
    decide

theorem Gc_offMem (o : Pos) : Gc.offMem o ↔ o = ((0 : Int), (0 : Int)) := by
  constructor
  · rintro ⟨k, l, hk, hl, hp, hA, hB⟩
    obtain ⟨a, b⟩ := o
    simp only [Gc] at hk hl hp hA hB
    rw [beq_iff_eq] at hp
    subst hp
    rw [Prod.ext_iff]
    exact ⟨by omega, by omega⟩
  · rintro rfl
    decide

theorem offSum_cex (o : Pos) : offSum [F1c, F2c] o ↔ o = ((0 : Int), (0 : Int)) := by
  constructor
  · rintro ⟨o1, o2, h1, ⟨o3, o4, h3, h4, rfl⟩, rfl⟩
    rw [F1c_offMem] at h1
    rw [F2c_offMem] at h3
    subst h1
    subst h3
    have h4a : o4 = ((0 : Int), (0 : Int)) := h4
    subst h4a
    decide
  · rintro rfl
    exact ⟨((0 : Int), (-1 : Int)), ((0 : Int), (1 : Int)),
      (F1c_offMem _).mpr rfl,
      ⟨((0 : Int), (1 : Int)), ((0 : Int), (0 : Int)),
        (F2c_offMem _).mpr rfl, rfl, by decide⟩, by decide⟩

/-- C6 counterexample: `Gc` is exactly the Minkowski-sum composite of the
decomposition `[(F1c,1),(F2c,1)]`, yet on a 1x1 all-false image the driven
decomposed erosion yields true at (0,0) (each step's neighbor is out of
bounds, so the border value true wins) while erosion by the composite
footprint yields false — the claimed exact equality fails. -/
theorem C6_counterexample :
    (∀ o : Pos, Gc.offMem o ↔
      offSum (List.replicate 1 F1c ++ List.replicate 1 F2c) o) ∧
    (resultImg (binary_erosion cexStore 0
      (FootprintArg.seq [(F1c, 1), (F2c, 1)]) none)).pix 0 0 = true ∧
    (resultImg (binary_erosion cexStore 0
      (FootprintArg.single Gc) none)).pix 0 0 = false := by
  refine ⟨?_, ?_, ?_⟩
  · intro o
    exact (Gc_offMem o).trans (offSum_cex o).symm
  · decide
  · decide

end SkimageBinary
